import Mathlib

/-!
The generic path of the elementary kernels in `src/blas_wrapped.cpp`.

A shallow embedding of the `else` branches (the branch taken when the element
type `P` is neither `float` nor `double`) of `copy`, `dot`, `axpy`, `scal`,
`basic_gemm`, `gemv`, `gemm`, `getrf` and `getri`.

Modelling conventions.

* `int` arguments are mathematical integers (`Int`).  Signed overflow is
  undefined behaviour in C++, so the embedding describes the runs in which no
  index computation overflows.
* The element type `P` is any type with `0`, `+` and `*`; the theorems ask for
  a ring, which covers the exact integers as well as arithmetic modulo `2^32`.
* A pointer argument is a buffer `Int → P`, indexed by the offset from the
  pointer.  Distinct buffers are distinct objects, so they never overlap, and a
  pointer is never null.  A store `p[i] = v` is `Function.update p i v`.
* A failed `assert` ends the call with `Outcome.assertFail`.
* A `for` loop whose step is an argument is run with fuel
  (one unit per evaluation of the loop condition); running out is
  `Outcome.outOfFuel`.  The unit-step loops of `basic_gemm` are folds over
  `0, 1, …, n-1`.
* A kernel returns the new content of the one buffer it stores to; the buffers
  it only reads are arguments and stay as they are.

The update rule of the explicit time advance, whose source is not available,
is modelled from the specification (`explicit_time_advance_update`).
-/

namespace Asgard

/-- A buffer seen through a pointer: the element at each offset. -/
abbrev Buf (P : Type) := Int → P

/-- How a call of a kernel ends. -/
inductive Outcome (α : Type) where
  | ok (a : α) : Outcome α
  | assertFail : Outcome α
  | outOfFuel : Outcome α
  deriving DecidableEq

/-- The loop `for (int i = i0; i < n; i += step) s = body(i, s);`,
with one unit of fuel per evaluation of `i < n`. -/
def forStep {σ : Type} (n step : Int) (body : Int → σ → σ) : Nat → Int → σ → Option σ
  | 0, _, _ => none
  | fuel + 1, i, s => if i < n then forStep n step body fuel (i + step) (body i s) else some s

/-- The loop `for (auto i = 0; i < n; ++i) s = body(i, s);`. -/
def forRange {σ : Type} (n : Int) (body : Int → σ → σ) (s : σ) : σ :=
  (List.range n.toNat).foldl (fun (s : σ) (i : Nat) => body (i : Int) s) s

/-- Turns the result of a fuelled loop into the outcome of the call. -/
def Outcome.ofLoop {σ α : Type} (f : σ → α) : Option σ → Outcome α
  | some s => Outcome.ok (f s)
  | none => Outcome.outOfFuel

section Kernels

variable {P : Type} [Zero P] [Add P] [Mul P]

/-- Generic path of `copy` (lines 13-15 and 27-32): the loop state is `(y, y_ptr)`. -/
def copy (fuel : Nat) (n : Int) (x : Buf P) (incx : Int) (y : Buf P) (incy : Int) :
    Outcome (Buf P) :=
  if incx < 0 ∨ incy < 0 ∨ n < 0 then Outcome.assertFail
  else
    Outcome.ofLoop Prod.fst
      (forStep n incx (fun i s => (Function.update s.1 s.2 (x i), s.2 + incy)) fuel 0 (y, 0))

/-- Generic path of `dot` (lines 44-46 and 58-65): the loop state is `(ans, y_ptr)`. -/
def dot (fuel : Nat) (n : Int) (x : Buf P) (incx : Int) (y : Buf P) (incy : Int) :
    Outcome P :=
  if incx < 0 ∨ incy < 0 ∨ n < 0 then Outcome.assertFail
  else
    Outcome.ofLoop Prod.fst
      (forStep n incx (fun i s => (s.1 + x i * y s.2, s.2 + incy)) fuel 0 ((0 : P), 0))

/-- Generic path of `axpy` (lines 79-81 and 93-97): the loop steps by `incy`
and indexes both vectors by `i`; `x_ptr` is never used. -/
def axpy (fuel : Nat) (n : Int) (alpha : P) (x : Buf P) (incx : Int) (y : Buf P) (incy : Int) :
    Outcome (Buf P) :=
  if incx < 0 ∨ incy < 0 ∨ n < 0 then Outcome.assertFail
  else
    Outcome.ofLoop id
      (forStep n incy (fun i y => Function.update y i (y i + x i * alpha)) fuel 0 y)

/-- Generic path of `scal` (lines 108-109 and 121-124). -/
def scal (fuel : Nat) (n : Int) (alpha : P) (x : Buf P) (incx : Int) : Outcome (Buf P) :=
  if n < 0 ∨ incx < 0 then Outcome.assertFail
  else
    Outcome.ofLoop id
      (forStep n incx (fun i x => Function.update x i (x i * alpha)) fuel 0 x)

/-- The loop nest of `basic_gemm` (lines 149-164). -/
def basic_gemm_loops (A : Buf P) (trans_A : Bool) (lda : Int) (B : Buf P) (trans_B : Bool)
    (ldb : Int) (C : Buf P) (ldc m k n : Int) : Buf P :=
  forRange m (fun i C =>
    forRange n (fun j C =>
      let result : P := forRange k (fun z result =>
        let A_loc : Int := if trans_A then i * lda + z else z * lda + i
        let B_loc : Int := if trans_B then z * ldb + j else j * ldb + z
        result + A A_loc * B B_loc) 0
      Function.update C (j * ldc + i) (C (j * ldc + i) + result)) C) C

/-- The helper `basic_gemm` (lines 131-165): six assertions, then the loop nest. -/
def basic_gemm (A : Buf P) (trans_A : Bool) (lda : Int) (B : Buf P) (trans_B : Bool)
    (ldb : Int) (C : Buf P) (ldc m k n : Int) : Outcome (Buf P) :=
  if m > 0 ∧ k > 0 ∧ n > 0 ∧ lda > 0 ∧ ldb > 0 ∧ ldc > 0 then
    Outcome.ok (basic_gemm_loops A trans_A lda B trans_B ldb C ldc m k n)
  else Outcome.assertFail

/-- Generic path of `gemv` (lines 182-187 and 199-202). -/
def gemv (trans : Char) (m n : Int) (alpha : P) (A : Buf P) (lda : Int) (x : Buf P)
    (incx : Int) (beta : P) (y : Buf P) (incy : Int) : Outcome (Buf P) :=
  if m < 0 ∨ n < 0 ∨ lda < 0 ∨ incx < 0 ∨ incy < 0 ∨ ¬(trans = 't' ∨ trans = 'n') then
    Outcome.assertFail
  else
    let trans_A : Bool := if trans = 't' then true else false
    let trans_x : Bool := false
    let one : Int := 1
    basic_gemm A trans_A lda x trans_x n y n m n one

/-- Generic path of `gemm` (lines 224-228 and 240-242). -/
def gemm (transa transb : Char) (m n k : Int) (alpha : P) (A : Buf P) (lda : Int) (B : Buf P)
    (ldb : Int) (beta : P) (C : Buf P) (ldc : Int) : Outcome (Buf P) :=
  if m < 0 ∨ n < 0 ∨ k < 0 ∨ ¬(transa = 't' ∨ transa = 'n') ∨ ¬(transb = 't' ∨ transb = 'n') then
    Outcome.assertFail
  else
    let trans_A : Bool := if transa = 't' then true else false
    let trans_B : Bool := if transb = 't' then true else false
    basic_gemm A trans_A lda B trans_B ldb C ldc m k n

/-- What a call of `getrf` or `getri` leaves behind: how it ended, the lines written to
`std::cerr`, and the contents of `A`, `ipiv` and `info`. -/
structure FactorResult (P : Type) where
  outcome : Outcome Unit
  cerr : List String
  A : Buf P
  ipiv : Buf Int
  info : Int

/-- Generic path of `getrf` (lines 256-258 and 268-272): three assertions on the integer
arguments, then a line on `std::cerr` and `assert(false)`; no store is made. -/
def getrf (m n : Int) (A : Buf P) (lda : Int) (ipiv : Buf Int) (info : Int) : FactorResult P :=
  if lda < 0 ∨ m < 0 ∨ n < 0 then FactorResult.mk Outcome.assertFail [] A ipiv info
  else
    FactorResult.mk Outcome.assertFail ["getrf not implemented for non-floating types"]
      A ipiv info

/-- Generic path of `getri` (lines 286-287 and 297-301): two assertions on the integer
arguments, then a line on `std::cerr` and `assert(false)`; no store is made. -/
def getri (n : Int) (A : Buf P) (lda : Int) (ipiv : Buf Int) (work : Buf P) (lwork : Int)
    (info : Int) : FactorResult P :=
  if lda < 0 ∨ n < 0 then FactorResult.mk Outcome.assertFail [] A ipiv info
  else
    FactorResult.mk Outcome.assertFail ["getri not implemented for non-floating types"]
      A ipiv info

end Kernels

/-- The buffer whose first elements are those of `l`, and `0` elsewhere. -/
def bufOf {P : Type} [Zero P] (l : List P) : Buf P :=
  fun i => if i < 0 then 0 else l.getD i.toNat 0

/-- The first `len` elements of a buffer. -/
def Outcome.take {P : Type} (len : Nat) : Outcome (Buf P) → Outcome (List P)
  | Outcome.ok b => Outcome.ok ((List.range len).map (fun (i : Nat) => b (i : Int)))
  | Outcome.assertFail => Outcome.assertFail
  | Outcome.outOfFuel => Outcome.outOfFuel

/-- The number of iterations of `for (i = 0; i < n; i += step)`: `n / step`, rounded up. -/
def ceilDiv (n step : Int) : Int := (n + step - 1) / step

/-- Modelled from the spec: the update rule of `explicit_time_advance`, which is declared in
`time_advance.hpp` and is not among the sources (`main.cpp`, lines 170-171, only calls it).
Section 4.4, step 3: "Advance: `x := x + dt · fx`", on the state vector `x` and the operator
image `fx` of the explicit system state. -/
def explicit_time_advance_update {P : Type} [Add P] [Mul P] (x fx : List P) (dt : P) : List P :=
  List.zipWith (fun xi fxi => xi + dt * fxi) x fx


/-! ## Loops -/

section Loops

variable {σ : Type}

theorem forRange_foldl_succ (body : Int → σ → σ) (s : σ) (N : Nat) :
    (List.range (N + 1)).foldl (fun (s : σ) (i : Nat) => body (i : Int) s) s
      = body (N : Int) ((List.range N).foldl (fun (s : σ) (i : Nat) => body (i : Int) s) s) := by
  rw [List.range_succ, List.foldl_append]
  rfl

/-- Invariant rule for the unit-step loop. -/
theorem forRange_induction (n : Int) (body : Int → σ → σ) (Inv : Int → σ → Prop) (s : σ)
    (h0 : Inv 0 s)
    (hstep : ∀ i s, 0 ≤ i → i < n → Inv i s → Inv (i + 1) (body i s)) :
    Inv (n.toNat : Int) (forRange n body s) := by
  unfold forRange
  have key : ∀ N : Nat, N ≤ n.toNat →
      Inv (N : Int) ((List.range N).foldl (fun (s : σ) (i : Nat) => body (i : Int) s) s) := by
    intro N
    induction N with
    | zero => intro _; simpa using h0
    | succ N ih =>
      intro hN
      rw [forRange_foldl_succ]
      have hlt : (N : Int) < n := by omega
      have := hstep (N : Int) _ (by omega) hlt (ih (by omega))
      simpa using this
  exact key _ le_rfl

/-- Invariant rule for the fuelled loop with a positive step: with more fuel than `n - i`
the loop ends, in a state satisfying the invariant at an index at or past `n`. -/
theorem forStep_induction (n step : Int) (hstep : 0 < step) (body : Int → σ → σ)
    (Inv : Int → σ → Prop)
    (hbody : ∀ i s, i < n → Inv i s → Inv (i + step) (body i s)) :
    ∀ (fuel : Nat) (i : Int) (s : σ), (n - i).toNat < fuel → Inv i s →
      ∃ i' s', forStep n step body fuel i s = some s' ∧ n ≤ i' ∧ Inv i' s' := by
  intro fuel
  induction fuel with
  | zero => intro i s h; omega
  | succ fuel ih =>
    intro i s hfuel hinv
    unfold forStep
    by_cases hi : i < n
    · rw [if_pos hi]
      exact ih (i + step) (body i s) (by omega) (hbody i s hi hinv)
    · rw [if_neg hi]
      exact ⟨i, s, rfl, by omega, hinv⟩

end Loops

/-! ## Strided in-place loops (`axpy`, `scal`) -/

section Strided

variable {P : Type}

/-- Two multiples of a positive `step` less than `step` apart are equal. -/
theorem multiple_unique (step i p : Int) (hi : i % step = 0) (hp : p % step = 0)
    (hle : i ≤ p) (hlt : p < i + step) : p = i := by
  by_contra hne
  have hpos : 0 < p - i := by omega
  have hdvd : step ∣ p - i :=
    Int.dvd_sub (Int.dvd_of_emod_eq_zero hp) (Int.dvd_of_emod_eq_zero hi)
  have := Int.le_of_dvd hpos hdvd
  omega

/-- Closed form of a loop `for (i = 0; i < n; i += step) s[i] = g(i, s[i]);` with
`step ≥ 1`: it rewrites the multiples of `step` in `[0, n)` and nothing else. -/
theorem forStep_update_apply (n step : Int) (hn : 0 ≤ n) (hstep : 1 ≤ step) (g : Int → P → P)
    (s0 : Buf P) (fuel : Nat) (hfuel : n.toNat < fuel) :
    forStep n step (fun i s => Function.update s i (g i (s i))) fuel 0 s0
      = some (fun p => if 0 ≤ p ∧ p < n ∧ p % step = 0 then g p (s0 p) else s0 p) := by
  obtain ⟨i', s', hrun, hge, ⟨hi0, hmod, hlt, hs'⟩⟩ :=
    forStep_induction n step (by omega) (fun i s => Function.update s i (g i (s i)))
      (fun i s => 0 ≤ i ∧ i % step = 0 ∧ i < n + step ∧
        ∀ p, s p = if 0 ≤ p ∧ p < i ∧ p % step = 0 then g p (s0 p) else s0 p)
      (by
        rintro i s hi ⟨hi0, hmod, _, hs⟩
        refine ⟨by omega, ?_, by omega, ?_⟩
        · rw [Int.add_emod_self]; exact hmod
        · intro p
          beta_reduce
          by_cases hp : p = i
          · subst hp
            rw [Function.update_same, hs, if_neg (by omega), if_pos ⟨hi0, by omega, hmod⟩]
          · rw [Function.update_noteq hp, hs]
            by_cases hc : 0 ≤ p ∧ p < i ∧ p % step = 0
            · rw [if_pos hc, if_pos ⟨hc.1, by omega, hc.2.2⟩]
            · rw [if_neg hc, if_neg]
              rintro ⟨h1, h2, h3⟩
              by_cases hpi : p < i
              · exact hc ⟨h1, hpi, h3⟩
              · exact hp (multiple_unique step i p hmod h3 (by omega) h2))
      fuel 0 s0 (by simpa using hfuel)
      ⟨le_rfl, by simp, by omega, by intro p; rw [if_neg]; omega⟩
  rw [hrun]
  congr 1
  funext p
  rw [hs']
  by_cases hc : 0 ≤ p ∧ p < n ∧ p % step = 0
  · rw [if_pos hc, if_pos ⟨hc.1, by omega, hc.2.2⟩]
  · rw [if_neg hc, if_neg]
    rintro ⟨h1, h2, h3⟩
    by_cases hpn : p < n
    · exact hc ⟨h1, hpn, h3⟩
    · have := multiple_unique step p i' h3 hmod (by omega) (by omega)
      omega

/-- Closed form of the generic `axpy`: it returns, and exactly the elements of `y` at the
multiples of `incy` below `n` have received `x[i] * alpha`. -/
theorem axpy_eq [Ring P] (n : Int) (alpha : P) (x : Buf P) (incx : Int) (y : Buf P)
    (incy : Int) (hn : 0 ≤ n) (hincx : 0 ≤ incx) (hincy : 1 ≤ incy) (fuel : Nat)
    (hfuel : n.toNat < fuel) :
    axpy fuel n alpha x incx y incy
      = Outcome.ok (fun p => if 0 ≤ p ∧ p < n ∧ p % incy = 0 then y p + x p * alpha else y p) := by
  unfold axpy
  rw [if_neg (by omega),
    forStep_update_apply n incy hn hincy (fun i v => v + x i * alpha) y fuel hfuel]
  rfl

/-- Closed form of the generic `scal`: it returns, and exactly the elements of `x` at the
multiples of `incx` below `n` have been multiplied by `alpha`. -/
theorem scal_eq [Ring P] (n : Int) (alpha : P) (x : Buf P) (incx : Int)
    (hn : 0 ≤ n) (hincx : 1 ≤ incx) (fuel : Nat) (hfuel : n.toNat < fuel) :
    scal fuel n alpha x incx
      = Outcome.ok (fun p => if 0 ≤ p ∧ p < n ∧ p % incx = 0 then x p * alpha else x p) := by
  unfold scal
  rw [if_neg (by omega),
    forStep_update_apply n incx hn hincx (fun _ v => v * alpha) x fuel hfuel]
  rfl

end Strided

/-! ## The loop nest of `basic_gemm` -/

section Gemm

variable {P : Type} [Ring P]

theorem Ico_int_succ (i : Int) (hi : 0 ≤ i) :
    Finset.Ico (0 : Int) (i + 1) = insert i (Finset.Ico (0 : Int) i) := by
  ext z
  simp only [Finset.mem_Ico, Finset.mem_insert]
  omega

/-- The innermost loop of `basic_gemm` adds up its terms. -/
theorem forRange_sum (k : Int) (f : Int → P) :
    forRange k (fun z result => result + f z) (0 : P) = ∑ z in Finset.Ico (0 : Int) k, f z := by
  have h := forRange_induction k (fun z result => result + f z)
    (fun i r => r = ∑ z in Finset.Ico (0 : Int) i, f z) (0 : P) (by simp)
    (by
      intro i r hi _ hr
      rw [Ico_int_succ i hi, Finset.sum_insert (by simp), hr, add_comm])
  rw [h]
  by_cases hk : 0 ≤ k
  · rw [Int.toNat_of_nonneg hk]
  · rw [Finset.Ico_eq_empty (by omega), Finset.Ico_eq_empty (by omega)]

theorem mul_add_emod (j ldc i : Int) (hi : 0 ≤ i) (hlt : i < ldc) : (j * ldc + i) % ldc = i := by
  rw [Int.add_comm, Int.add_mul_emod_self]
  exact Int.emod_eq_of_lt hi hlt

theorem mul_add_ediv (j ldc i : Int) (hi : 0 ≤ i) (hlt : i < ldc) : (j * ldc + i) / ldc = j := by
  rw [Int.add_comm, Int.add_mul_ediv_right _ _ (by omega), Int.ediv_eq_zero_of_lt hi hlt,
    zero_add]

/-- The `j` loop of `basic_gemm` for one row `i`: column `j` of row `i` receives `S j`. -/
theorem gemm_row_apply (ldc i n : Int) (hi : 0 ≤ i) (hlt : i < ldc) (S : Int → P)
    (C : Buf P) (p : Int) :
    forRange n (fun j C => Function.update C (j * ldc + i) (C (j * ldc + i) + S j)) C p
      = if 0 ≤ p ∧ p % ldc = i ∧ p / ldc < n then C p + S (p / ldc) else C p := by
  have hldc : 0 < ldc := by omega
  have h := forRange_induction n
    (fun j C => Function.update C (j * ldc + i) (C (j * ldc + i) + S j))
    (fun j' C' => ∀ p, C' p = if 0 ≤ p ∧ p % ldc = i ∧ p / ldc < j' then C p + S (p / ldc)
      else C p) C
    (by
      intro p
      have : 0 ≤ p → 0 ≤ p / ldc := fun hp => Int.ediv_nonneg hp hldc.le
      rw [if_neg]
      omega)
    (by
      intro j' C' hj' _ hC' p
      beta_reduce
      have hmod := mul_add_emod j' ldc i hi hlt
      have hdiv := mul_add_ediv j' ldc i hi hlt
      have hpos : 0 ≤ j' * ldc + i := by positivity
      by_cases hp : p = j' * ldc + i
      · subst hp
        rw [Function.update_same, hC', if_neg (by omega), if_pos ⟨hpos, hmod, by omega⟩, hdiv]
      · rw [Function.update_noteq hp, hC']
        have hiff : (0 ≤ p ∧ p % ldc = i ∧ p / ldc < j') ↔
            (0 ≤ p ∧ p % ldc = i ∧ p / ldc < j' + 1) := by
          constructor
          · rintro ⟨h1, h2, h3⟩; exact ⟨h1, h2, by omega⟩
          · rintro ⟨h1, h2, h3⟩
            refine ⟨h1, h2, ?_⟩
            by_contra hge
            have hq : p / ldc = j' := by omega
            have := Int.emod_add_ediv p ldc
            rw [hq, h2] at this
            apply hp
            rw [← this]; ring
        simp only [hiff])
  rw [h p]
  have : 0 ≤ p → 0 ≤ p / ldc := fun hp => Int.ediv_nonneg hp hldc.le
  by_cases hc : 0 ≤ p ∧ p % ldc = i ∧ p / ldc < n
  · rw [if_pos hc, if_pos ⟨hc.1, hc.2.1, by omega⟩]
  · rw [if_neg hc, if_neg]
    rintro ⟨h1, h2, h3⟩
    exact hc ⟨h1, h2, by omega⟩

/-- Closed form of the loop nest of `basic_gemm`, at every offset `p` of `C`. -/
theorem basic_gemm_loops_apply (A : Buf P) (trans_A : Bool) (lda : Int) (B : Buf P)
    (trans_B : Bool) (ldb : Int) (C : Buf P) (ldc m k n : Int) (hldc : 0 < ldc)
    (hm : m ≤ ldc) (p : Int) :
    basic_gemm_loops A trans_A lda B trans_B ldb C ldc m k n p
      = if 0 ≤ p ∧ p % ldc < m ∧ p / ldc < n then
          C p + ∑ z in Finset.Ico (0 : Int) k,
            A (if trans_A then p % ldc * lda + z else z * lda + p % ldc)
              * B (if trans_B then z * ldb + p / ldc else p / ldc * ldb + z)
        else C p := by
  unfold basic_gemm_loops
  have hmodnn : 0 ≤ p % ldc := Int.emod_nonneg p (by omega)
  have h := forRange_induction m
    (fun i C => forRange n (fun j C =>
      let result : P := forRange k (fun z result =>
        let A_loc : Int := if trans_A then i * lda + z else z * lda + i
        let B_loc : Int := if trans_B then z * ldb + j else j * ldb + z
        result + A A_loc * B B_loc) 0
      Function.update C (j * ldc + i) (C (j * ldc + i) + result)) C)
    (fun i' C' => ∀ p, C' p = if 0 ≤ p ∧ p % ldc < i' ∧ p / ldc < n then
          C p + ∑ z in Finset.Ico (0 : Int) k,
            A (if trans_A then p % ldc * lda + z else z * lda + p % ldc)
              * B (if trans_B then z * ldb + p / ldc else p / ldc * ldb + z)
        else C p) C
    (by
      intro p
      have : 0 ≤ p % ldc := Int.emod_nonneg p (by omega)
      rw [if_neg]
      omega)
    (by
      intro i C' hi hilt hC' p
      beta_reduce
      have hmodp : 0 ≤ p % ldc := Int.emod_nonneg p (by omega)
      simp only [forRange_sum]
      rw [gemm_row_apply ldc i n hi (by omega)
        (fun j => ∑ z in Finset.Ico (0 : Int) k,
          A (if trans_A then i * lda + z else z * lda + i)
            * B (if trans_B then z * ldb + j else j * ldb + z)) C' p, hC' p]
      by_cases h1 : 0 ≤ p ∧ p % ldc = i ∧ p / ldc < n
      · obtain ⟨ha, hb, hc⟩ := h1
        rw [if_pos ⟨ha, hb, hc⟩, if_neg (by omega), if_pos ⟨ha, by omega, hc⟩, hb]
      · rw [if_neg h1]
        by_cases h2 : 0 ≤ p ∧ p % ldc < i ∧ p / ldc < n
        · rw [if_pos h2, if_pos ⟨h2.1, by omega, h2.2.2⟩]
        · rw [if_neg h2, if_neg]
          rintro ⟨ha, hb, hc⟩
          by_cases h3 : p % ldc = i
          · exact h1 ⟨ha, h3, hc⟩
          · exact h2 ⟨ha, by omega, hc⟩)
  rw [h p]
  by_cases hc : 0 ≤ p ∧ p % ldc < m ∧ p / ldc < n
  · rw [if_pos hc, if_pos ⟨hc.1, by omega, hc.2.2⟩]
  · rw [if_neg hc, if_neg]
    rintro ⟨h1, h2, h3⟩
    exact hc ⟨h1, by omega, h3⟩

end Gemm

/-! ## `gemm` -/

section GemmCall

variable {P : Type} [Ring P]

/-- With valid flags, positive dimensions and positive leading dimensions no assertion of
`gemm` or `basic_gemm` fails, and the call returns the result of the loop nest. -/
theorem gemm_eq_loops (transa transb : Char) (m n k : Int) (alpha : P) (A : Buf P) (lda : Int)
    (B : Buf P) (ldb : Int) (beta : P) (C : Buf P) (ldc : Int)
    (hta : transa = 'n' ∨ transa = 't') (htb : transb = 'n' ∨ transb = 't')
    (hm : 1 ≤ m) (hn : 1 ≤ n) (hk : 1 ≤ k) (hlda : 1 ≤ lda) (hldb : 1 ≤ ldb) (hldc : 1 ≤ ldc) :
    gemm transa transb m n k alpha A lda B ldb beta C ldc
      = Outcome.ok (basic_gemm_loops A (decide (transa = 't')) lda B (decide (transb = 't')) ldb
          C ldc m k n) := by
  have h1 : ¬(m < 0 ∨ n < 0 ∨ k < 0 ∨ ¬(transa = 't' ∨ transa = 'n')
      ∨ ¬(transb = 't' ∨ transb = 'n')) := by
    rintro (h | h | h | h | h)
    · omega
    · omega
    · omega
    · exact h hta.symm
    · exact h htb.symm
  have h2 : m > 0 ∧ k > 0 ∧ n > 0 ∧ lda > 0 ∧ ldb > 0 ∧ ldc > 0 := by
    refine ⟨?_, ?_, ?_, ?_, ?_, ?_⟩ <;> omega
  unfold gemm
  rw [if_neg h1]
  unfold basic_gemm
  rw [if_pos h2]
  have e : ∀ c : Char, (if c = 't' then true else false) = decide (c = 't') := by
    intro c
    by_cases h : c = 't' <;> simp [h]
  rw [e transa, e transb]

/-- Entry `(i, j)` of the result block after a call of `gemm`. -/
theorem gemm_entry (transa transb : Char) (m n k : Int) (alpha : P) (A : Buf P) (lda : Int)
    (B : Buf P) (ldb : Int) (beta : P) (C : Buf P) (ldc : Int)
    (hta : transa = 'n' ∨ transa = 't') (htb : transb = 'n' ∨ transb = 't')
    (hm : 1 ≤ m) (hn : 1 ≤ n) (hk : 1 ≤ k) (hlda : 1 ≤ lda) (hldb : 1 ≤ ldb) (hldc : m ≤ ldc) :
    ∃ C_out : Buf P, gemm transa transb m n k alpha A lda B ldb beta C ldc = Outcome.ok C_out ∧
      ∀ i j : Int, 0 ≤ i → i < m → 0 ≤ j → j < n →
        C_out (j * ldc + i) = C (j * ldc + i) + ∑ z in Finset.Ico (0 : Int) k,
          (if transa = 'n' then A (z * lda + i) else A (i * lda + z))
            * (if transb = 'n' then B (j * ldb + z) else B (z * ldb + j)) := by
  refine ⟨_, gemm_eq_loops transa transb m n k alpha A lda B ldb beta C ldc hta htb hm hn hk
    hlda hldb (by omega), ?_⟩
  intro i j hi hilt hj hjlt
  have hmod := mul_add_emod j ldc i hi (by omega)
  have hdiv := mul_add_ediv j ldc i hi (by omega)
  have hpos : 0 ≤ j * ldc + i := by
    have : 0 ≤ j * ldc := Int.mul_nonneg hj (by omega)
    omega
  rw [basic_gemm_loops_apply A _ lda B _ ldb C ldc m k n (by omega) hldc,
    if_pos ⟨hpos, by omega, by omega⟩, hmod, hdiv]
  congr 1
  apply Finset.sum_congr rfl
  intro z _
  have hchar : ('n' : Char) ≠ 't' := by decide
  rcases hta with rfl | rfl <;> rcases htb with rfl | rfl <;> simp [hchar]

end GemmCall

/-! ## `gemv` -/

section Gemv

variable {P : Type} [Ring P]

theorem forRange_one {σ : Type} (body : Int → σ → σ) (s : σ) : forRange 1 body s = body 0 s := by
  rfl

/-- Closed form of the loop nest of `basic_gemm` when the result has one column (`n = 1`),
at every offset `p` of `C`; the leading dimensions `ldb` and `ldc` play no role. -/
theorem basic_gemm_loops_one_col (A : Buf P) (trans_A : Bool) (lda : Int) (B : Buf P)
    (trans_B : Bool) (ldb : Int) (C : Buf P) (ldc m k : Int) (p : Int) :
    basic_gemm_loops A trans_A lda B trans_B ldb C ldc m k 1 p
      = if 0 ≤ p ∧ p < m then
          C p + ∑ z in Finset.Ico (0 : Int) k,
            A (if trans_A then p * lda + z else z * lda + p) * B (if trans_B then z * ldb else z)
        else C p := by
  unfold basic_gemm_loops
  have h := forRange_induction m
    (fun i C => forRange 1 (fun j C =>
      let result : P := forRange k (fun z result =>
        let A_loc : Int := if trans_A then i * lda + z else z * lda + i
        let B_loc : Int := if trans_B then z * ldb + j else j * ldb + z
        result + A A_loc * B B_loc) 0
      Function.update C (j * ldc + i) (C (j * ldc + i) + result)) C)
    (fun i' C' => ∀ p, C' p = if 0 ≤ p ∧ p < i' then
          C p + ∑ z in Finset.Ico (0 : Int) k,
            A (if trans_A then p * lda + z else z * lda + p) * B (if trans_B then z * ldb else z)
        else C p) C
    (by
      intro p
      rw [if_neg]
      omega)
    (by
      intro i C' hi hilt hC' p
      beta_reduce
      rw [forRange_one]
      simp only [forRange_sum, zero_mul, zero_add, add_zero]
      rw [show (0 : Int) * ldc + i = i by ring]
      by_cases hp : p = i
      · subst hp
        rw [Function.update_same, hC', if_neg (by omega), if_pos ⟨hi, by omega⟩]
      · rw [Function.update_noteq hp, hC']
        by_cases hc : 0 ≤ p ∧ p < i
        · rw [if_pos hc, if_pos ⟨hc.1, by omega⟩]
        · rw [if_neg hc, if_neg]
          rintro ⟨h1, h2⟩
          exact hc ⟨h1, by omega⟩)
  rw [h p]
  by_cases hc : 0 ≤ p ∧ p < m
  · rw [if_pos hc, if_pos ⟨hc.1, by omega⟩]
  · rw [if_neg hc, if_neg]
    rintro ⟨h1, h2⟩
    exact hc ⟨h1, by omega⟩

/-- Closed form of the generic `gemv`: with a valid flag, `m, n, lda ≥ 1` and non-negative
strides it returns, and `y[p]` has received `Σ_{z<n} A[..] * x[z]` for `p < m`, where the
index into `A` is `z*lda+p` for `'n'` and `p*lda+z` for `'t'`. -/
theorem gemv_eq (trans : Char) (m n : Int) (alpha : P) (A : Buf P) (lda : Int) (x : Buf P)
    (incx : Int) (beta : P) (y : Buf P) (incy : Int) (ht : trans = 'n' ∨ trans = 't')
    (hm : 1 ≤ m) (hn : 1 ≤ n) (hlda : 1 ≤ lda) (hincx : 0 ≤ incx) (hincy : 0 ≤ incy) :
    gemv trans m n alpha A lda x incx beta y incy
      = Outcome.ok (fun p => if 0 ≤ p ∧ p < m then
          y p + ∑ z in Finset.Ico (0 : Int) n,
            A (if trans = 't' then p * lda + z else z * lda + p) * x z
        else y p) := by
  have h1 : ¬(m < 0 ∨ n < 0 ∨ lda < 0 ∨ incx < 0 ∨ incy < 0 ∨ ¬(trans = 't' ∨ trans = 'n')) := by
    rintro (h | h | h | h | h | h)
    · omega
    · omega
    · omega
    · omega
    · omega
    · exact h ht.symm
  have h2 : m > 0 ∧ n > 0 ∧ (1 : Int) > 0 ∧ lda > 0 ∧ n > 0 ∧ n > 0 := by
    refine ⟨?_, ?_, ?_, ?_, ?_, ?_⟩ <;> omega
  unfold gemv
  rw [if_neg h1]
  unfold basic_gemm
  rw [if_pos h2]
  congr 1
  funext p
  rw [basic_gemm_loops_one_col]
  by_cases h : trans = 't' <;> simp [h]

end Gemv

/-- C1: on the generic path, for `m, n, k ≥ 1`, flags in `{'n','t'}`, positive leading
dimensions with `ldc ≥ m` and separate buffers, `gemm` returns and leaves
`C_out[j*ldc+i] = C_in[j*ldc+i] + Σ_{z<k} opA(i,z)*opB(z,j)` for all `i < m`, `j < n`, where
`opA(i,z)` is `A[z*lda+i]` for `'n'` and `A[i*lda+z]` for `'t'`, and `opB(z,j)` is
`B[j*ldb+z]` for `'n'` and `B[z*ldb+j]` for `'t'`. -/
theorem gemm_accumulates_product {P : Type} [Ring P] (transa transb : Char) (m n k : Int)
    (alpha : P) (A : Buf P) (lda : Int) (B : Buf P) (ldb : Int) (beta : P) (C : Buf P)
    (ldc : Int) (hta : transa = 'n' ∨ transa = 't') (htb : transb = 'n' ∨ transb = 't')
    (hm : 1 ≤ m) (hn : 1 ≤ n) (hk : 1 ≤ k) (hlda : 1 ≤ lda) (hldb : 1 ≤ ldb) (hldc : m ≤ ldc) :
    ∃ C_out : Buf P, gemm transa transb m n k alpha A lda B ldb beta C ldc = Outcome.ok C_out ∧
      ∀ i j : Int, 0 ≤ i → i < m → 0 ≤ j → j < n →
        C_out (j * ldc + i) = C (j * ldc + i) + ∑ z in Finset.Ico (0 : Int) k,
          (if transa = 'n' then A (z * lda + i) else A (i * lda + z))
            * (if transb = 'n' then B (j * ldb + z) else B (z * ldb + j)) :=
  gemm_entry transa transb m n k alpha A lda B ldb beta C ldc hta htb hm hn hk hlda hldb hldc

theorem Ico_int_zero_two : Finset.Ico (0 : Int) 2 = {0, 1} := by decide

/-- The example of C1: the column-major buffers of `[[1,2],[3,4]]` and `[[5,6],[7,8]]` and a
zeroed `C` give the buffer `[19,43,22,50]`. -/
theorem gemm_accumulates_product_witness :
    ∃ C_out : Buf Int,
      gemm 'n' 'n' 2 2 2 (1 : Int) (bufOf [1, 3, 2, 4]) 2 (bufOf [5, 7, 6, 8]) 2 0
        (bufOf [0, 0, 0, 0]) 2 = Outcome.ok C_out ∧
      C_out 0 = 19 ∧ C_out 1 = 43 ∧ C_out 2 = 22 ∧ C_out 3 = 50 := by
  obtain ⟨C_out, hcall, hentry⟩ :=
    gemm_accumulates_product 'n' 'n' 2 2 2 (1 : Int) (bufOf [1, 3, 2, 4]) 2 (bufOf [5, 7, 6, 8])
      2 0 (bufOf [0, 0, 0, 0]) 2 (by decide) (by decide) (by decide) (by decide) (by decide)
      (by decide) (by decide) (by decide)
  refine ⟨C_out, hcall, ?_, ?_, ?_, ?_⟩
  · have h := hentry 0 0 (by decide) (by decide) (by decide) (by decide)
    rw [Ico_int_zero_two] at h
    simpa [bufOf] using h
  · have h := hentry 1 0 (by decide) (by decide) (by decide) (by decide)
    rw [Ico_int_zero_two] at h
    simpa [bufOf] using h
  · have h := hentry 0 1 (by decide) (by decide) (by decide) (by decide)
    rw [Ico_int_zero_two] at h
    simpa [bufOf] using h
  · have h := hentry 1 1 (by decide) (by decide) (by decide) (by decide)
    rw [Ico_int_zero_two] at h
    simpa [bufOf] using h

/-- C2: on the generic path, with `C` zero on the result block, two calls of `gemm` with the
same arguments and no re-zeroing in between leave in every `C[j*ldc+i]` (`i < m`, `j < n`)
twice the value that the first call left there. -/
theorem gemm_twice_doubles {P : Type} [Ring P] (transa transb : Char) (m n k : Int)
    (alpha : P) (A : Buf P) (lda : Int) (B : Buf P) (ldb : Int) (beta : P) (C : Buf P)
    (ldc : Int) (hta : transa = 'n' ∨ transa = 't') (htb : transb = 'n' ∨ transb = 't')
    (hm : 1 ≤ m) (hn : 1 ≤ n) (hk : 1 ≤ k) (hlda : 1 ≤ lda) (hldb : 1 ≤ ldb) (hldc : m ≤ ldc)
    (hzero : ∀ i j : Int, 0 ≤ i → i < m → 0 ≤ j → j < n → C (j * ldc + i) = 0) :
    ∃ C_once C_twice : Buf P,
      gemm transa transb m n k alpha A lda B ldb beta C ldc = Outcome.ok C_once ∧
      gemm transa transb m n k alpha A lda B ldb beta C_once ldc = Outcome.ok C_twice ∧
      ∀ i j : Int, 0 ≤ i → i < m → 0 ≤ j → j < n →
        C_twice (j * ldc + i) = 2 * C_once (j * ldc + i) := by
  obtain ⟨C1, hcall1, h1⟩ :=
    gemm_entry transa transb m n k alpha A lda B ldb beta C ldc hta htb hm hn hk hlda hldb hldc
  obtain ⟨C2, hcall2, h2⟩ :=
    gemm_entry transa transb m n k alpha A lda B ldb beta C1 ldc hta htb hm hn hk hlda hldb hldc
  refine ⟨C1, C2, hcall1, hcall2, ?_⟩
  intro i j hi hilt hj hjlt
  have e1 := h1 i j hi hilt hj hjlt
  rw [hzero i j hi hilt hj hjlt, zero_add] at e1
  rw [h2 i j hi hilt hj hjlt, ← e1, two_mul]

/-- The example of C1 run twice: the second call turns `[19,43,22,50]` into `[38,86,44,100]`. -/
theorem gemm_twice_doubles_witness :
    ∃ C_once C_twice : Buf Int,
      gemm 'n' 'n' 2 2 2 (1 : Int) (bufOf [1, 3, 2, 4]) 2 (bufOf [5, 7, 6, 8]) 2 0
        (bufOf [0, 0, 0, 0]) 2 = Outcome.ok C_once ∧
      gemm 'n' 'n' 2 2 2 (1 : Int) (bufOf [1, 3, 2, 4]) 2 (bufOf [5, 7, 6, 8]) 2 0
        C_once 2 = Outcome.ok C_twice ∧
      ∀ i j : Int, 0 ≤ i → i < 2 → 0 ≤ j → j < 2 →
        C_twice (j * 2 + i) = 2 * C_once (j * 2 + i) :=
  gemm_twice_doubles 'n' 'n' 2 2 2 (1 : Int) (bufOf [1, 3, 2, 4]) 2 (bufOf [5, 7, 6, 8])
    2 0 (bufOf [0, 0, 0, 0]) 2 (by decide) (by decide) (by decide) (by decide) (by decide)
    (by decide) (by decide) (by decide)
    (by
      intro i j h1 h2 h3 h4
      have hi : i = 0 ∨ i = 1 := by omega
      have hj : j = 0 ∨ j = 1 := by omega
      rcases hi with rfl | rfl <;> rcases hj with rfl | rfl <;> decide)

/-! ## `copy`, `dot`, `axpy`, `scal` -/

/-- C3 at `n = 2`, `incx = 2`, `incy = 1`, `x = [1,2,3]`, `y = [0,0]`: the generic `copy`
returns after one assignment, with `y = [1,0]`, so `y[1*incy] = 0` although `x[1*incx] = 3`. -/
theorem copy_stride_two_one_assignment (fuel : Nat) :
    (copy (fuel + 2) 2 (bufOf [(1 : Int), 2, 3]) 2 (bufOf [0, 0]) 1).take 2 = Outcome.ok [1, 0]
      ∧ (bufOf [(1 : Int), 2, 3]) (1 * 2) = 3 := by
  constructor
  · simp [copy, forStep, Outcome.ofLoop, Outcome.take, bufOf, List.range, List.range.loop]
  · decide

/-- C4 at `n = 2`, `incx = 2`, `incy = 1`, `x = [1,2,3]`, `y = [4,5]`: the generic `dot`
returns `x[0]*y[0] = 4`, while the two-element strided inner product is
`x[0]*y[0] + x[2]*y[1] = 19`. -/
theorem dot_stride_two_one_term (fuel : Nat) :
    dot (fuel + 2) 2 (bufOf [(1 : Int), 2, 3]) 2 (bufOf [4, 5]) 1 = Outcome.ok 4
      ∧ (bufOf [(1 : Int), 2, 3]) (0 * 2) * (bufOf [(4 : Int), 5]) (0 * 1)
          + (bufOf [(1 : Int), 2, 3]) (1 * 2) * (bufOf [(4 : Int), 5]) (1 * 1) = 19 := by
  constructor
  · simp [dot, forStep, Outcome.ofLoop, bufOf]
  · decide

/-- C5 at `n = 2`, `incx = 1`, `incy = 2`, `x = [1,2]`, `y = [0,0,0]`: the generic `copy`
leaves `y = [1,0,2]`; the generic `dot` of `x` with itself is `5`, and that of the copied
`y` with itself at stride `incy` is `1`. -/
theorem copy_then_dot_differs (fuel : Nat) :
    ∃ y_out : Buf Int,
      copy (fuel + 3) 2 (bufOf [(1 : Int), 2]) 1 (bufOf [0, 0, 0]) 2 = Outcome.ok y_out
        ∧ (Outcome.ok y_out).take 3 = Outcome.ok [1, 0, 2]
        ∧ dot (fuel + 3) 2 (bufOf [(1 : Int), 2]) 1 (bufOf [(1 : Int), 2]) 1 = Outcome.ok 5
        ∧ dot (fuel + 3) 2 y_out 2 y_out 2 = Outcome.ok 1 := by
  refine ⟨Function.update (Function.update (bufOf [0, 0, 0]) 0 1) 2 2, ?_, ?_, ?_, ?_⟩
  · simp [copy, forStep, Outcome.ofLoop, bufOf]
  · simp [Outcome.take, bufOf, List.range, List.range.loop, Function.update]
  · simp [dot, forStep, Outcome.ofLoop, bufOf]
  · simp [dot, forStep, Outcome.ofLoop, bufOf, Function.update]

/-- C6: on the generic path over a ring, for `n ≥ 0`, `incx ≥ 0`, `incy ≥ 1`, any `alpha`
and separate buffers, `axpy` with `alpha` followed by `axpy` with `-alpha` both return (with
more than `n` units of fuel) and the second leaves every element of `y` at its original value. -/
theorem axpy_neg_alpha_restores {P : Type} [Ring P] (n : Int) (alpha : P) (x : Buf P)
    (incx : Int) (y : Buf P) (incy : Int) (hn : 0 ≤ n) (hincx : 0 ≤ incx) (hincy : 1 ≤ incy)
    (fuel : Nat) (hfuel : n.toNat < fuel) :
    ∃ y_mid : Buf P, axpy fuel n alpha x incx y incy = Outcome.ok y_mid ∧
      axpy fuel n (-alpha) x incx y_mid incy = Outcome.ok y := by
  refine ⟨_, axpy_eq n alpha x incx y incy hn hincx hincy fuel hfuel, ?_⟩
  rw [axpy_eq n (-alpha) x incx _ incy hn hincx hincy fuel hfuel]
  congr 1
  funext p
  by_cases hc : 0 ≤ p ∧ p < n ∧ p % incy = 0
  · simp only [if_pos hc]
    rw [add_assoc, mul_neg, add_neg_cancel, add_zero]
  · simp only [if_neg hc]

/-- An instance of C6: `n = 3`, `alpha = 2`, `x = [1,2,3]`, `incx = 1`, `y = [10,20,30]`,
`incy = 2`. -/
theorem axpy_neg_alpha_restores_witness :
    ∃ y_mid : Buf Int,
      axpy 4 3 2 (bufOf [1, 2, 3]) 1 (bufOf [10, 20, 30]) 2 = Outcome.ok y_mid ∧
      axpy 4 3 (-2) (bufOf [1, 2, 3]) 1 y_mid 2 = Outcome.ok (bufOf [10, 20, 30]) :=
  axpy_neg_alpha_restores 3 2 (bufOf [1, 2, 3]) 1 (bufOf [10, 20, 30]) 2 (by decide)
    (by decide) (by decide) 4 (by decide)

/-- C7: on the generic path over a ring, for `n ≥ 0` and `incx ≥ 1`, `scal` with `alpha = 1`
returns (with more than `n` units of fuel) the buffer `x` it was given, element for element. -/
theorem scal_one_noop {P : Type} [Ring P] (n : Int) (x : Buf P) (incx : Int) (hn : 0 ≤ n)
    (hincx : 1 ≤ incx) (fuel : Nat) (hfuel : n.toNat < fuel) :
    scal fuel n 1 x incx = Outcome.ok x := by
  rw [scal_eq n 1 x incx hn hincx fuel hfuel]
  congr 1
  funext p
  simp only [mul_one, ite_self]

/-- An instance of C7: `n = 3`, `x = [4,5,6]`, `incx = 2`. -/
theorem scal_one_noop_witness :
    scal 4 3 1 (bufOf [(4 : Int), 5, 6]) 2 = Outcome.ok (bufOf [(4 : Int), 5, 6]) :=
  scal_one_noop 3 (bufOf [(4 : Int), 5, 6]) 2 (by decide) (by decide) 4 (by decide)

/-- C8 at `n = 2`, `alpha = 0`, `incx = 2`, `x = [1,2,3]`: the generic `scal` returns after
zeroing `x[0]` alone, with `x = [0,2,3]`, so `x[1*incx] = 3` is not zero. -/
theorem scal_zero_stride_two_one_element (fuel : Nat) :
    (scal (fuel + 2) 2 0 (bufOf [(1 : Int), 2, 3]) 2).take 3 = Outcome.ok [0, 2, 3] := by
  simp [scal, forStep, Outcome.ofLoop, Outcome.take, bufOf, List.range, List.range.loop,
    Function.update]

/-! ## `gemv` -/

/-- C9: on the generic path over a ring, for `trans = 'n'`, `m, n ≥ 1`, `lda ≥ m`,
`alpha = 1`, `beta = 0`, `incx = incy = 1`, `y` zero on `[0, m)` and separate buffers, `gemv`
returns with `y[i] = Σ_{j<n} A[j*lda+i] * x[j]` for all `i < m`, and its whole result is that
of the generic `gemm` on `A` and the one-column right operand `x`. -/
theorem gemv_notrans_product {P : Type} [Ring P] (m n : Int) (A : Buf P) (lda : Int)
    (x y : Buf P) (hm : 1 ≤ m) (hn : 1 ≤ n) (hlda : m ≤ lda)
    (hzero : ∀ i : Int, 0 ≤ i → i < m → y i = 0) :
    ∃ y_out : Buf P, gemv 'n' m n 1 A lda x 1 0 y 1 = Outcome.ok y_out ∧
      (∀ i : Int, 0 ≤ i → i < m → y_out i = ∑ j in Finset.Ico (0 : Int) n, A (j * lda + i) * x j)
      ∧ ∀ ldb ldc : Int, n ≤ ldb → m ≤ ldc →
          gemm 'n' 'n' m 1 n 1 A lda x ldb 0 y ldc = Outcome.ok y_out := by
  have hchar : ('n' : Char) ≠ 't' := by decide
  refine ⟨_, gemv_eq 'n' m n 1 A lda x 1 0 y 1 (Or.inl rfl) hm hn (by omega) (by decide)
    (by decide), ?_, ?_⟩
  · intro i hi hilt
    simp only [if_pos (And.intro hi hilt), hzero i hi hilt, zero_add, if_neg hchar]
  · intro ldb ldc hldb hldc
    rw [gemm_eq_loops 'n' 'n' m 1 n 1 A lda x ldb 0 y ldc (Or.inl rfl) (Or.inl rfl) hm le_rfl hn
      (by omega) (by omega) (by omega)]
    congr 1
    funext p
    rw [basic_gemm_loops_one_col]
    simp [hchar]

/-- An instance of C9: the 2-by-2 matrix `[[1,2],[3,4]]` (buffer `[1,3,2,4]`) times `[5,7]`. -/
theorem gemv_notrans_product_witness :
    ∃ y_out : Buf Int,
      gemv 'n' 2 2 1 (bufOf [1, 3, 2, 4]) 2 (bufOf [5, 7]) 1 0 (bufOf [0, 0]) 1
        = Outcome.ok y_out ∧
      (∀ i : Int, 0 ≤ i → i < 2 →
        y_out i = ∑ j in Finset.Ico (0 : Int) 2,
          (bufOf [1, 3, 2, 4] : Buf Int) (j * 2 + i) * (bufOf [5, 7] : Buf Int) j)
      ∧ ∀ ldb ldc : Int, 2 ≤ ldb → 2 ≤ ldc →
          gemm 'n' 'n' 2 1 2 1 (bufOf [1, 3, 2, 4]) 2 (bufOf [5, 7]) ldb 0 (bufOf [0, 0]) ldc
            = Outcome.ok y_out :=
  gemv_notrans_product 2 2 (bufOf [1, 3, 2, 4]) 2 (bufOf [5, 7]) (bufOf [0, 0]) (by decide)
    (by decide) (by decide)
    (by
      intro i h0 h1
      have hi : i = 0 ∨ i = 1 := by omega
      rcases hi with rfl | rfl <;> decide)

/-- C10 at two inputs with `trans = 't'`, `alpha = 1`, `beta = 0`, unit strides.
With `m = 1`, `n = 2`, `lda = 1`, `A = [1,1]`, `x = [1,0]`, `y = [0,0]` the generic `gemv`
leaves `y = [1,0]`, while `(Aᵀx)[1] = A[1*lda+0]*x[0] = 1`.
With `m = 2`, `n = 1`, `lda = 2`, `A = [1,1,5]`, `x = [1,1]`, `y = [0,0]` it leaves
`y = [1,5]`: `y[0]` is not `A[0]*x[0] + A[1]*x[1] = 2`, and `y[1]`, outside `y[0..n)`, is
written. -/
theorem gemv_trans_swaps_dimensions :
    (gemv 't' 1 2 (1 : Int) (bufOf [1, 1]) 1 (bufOf [1, 0]) 1 0 (bufOf [0, 0]) 1).take 2
        = Outcome.ok [1, 0]
      ∧ (bufOf [(1 : Int), 1]) (1 * 1 + 0) * (bufOf [(1 : Int), 0]) 0 = 1
      ∧ (gemv 't' 2 1 (1 : Int) (bufOf [1, 1, 5]) 2 (bufOf [1, 1]) 1 0 (bufOf [0, 0]) 1).take 2
        = Outcome.ok [1, 5] := by
  decide

/-! ## `getrf`, `getri` and the assertions of `gemm` and `gemv` -/

/-- C11: on the generic path `getrf` and `getri` end in an assertion failure for every
argument tuple, whether or not the sign preconditions hold, and `A`, `ipiv` and `info` are
as they were before the call. -/
theorem getrf_getri_always_abort {P : Type} [Zero P] [Add P] [Mul P] (m n lda lwork info : Int)
    (A work : Buf P) (ipiv : Buf Int) :
    ((getrf m n A lda ipiv info).outcome = Outcome.assertFail
        ∧ (getrf m n A lda ipiv info).A = A
        ∧ (getrf m n A lda ipiv info).ipiv = ipiv
        ∧ (getrf m n A lda ipiv info).info = info)
      ∧ ((getri n A lda ipiv work lwork info).outcome = Outcome.assertFail
        ∧ (getri n A lda ipiv work lwork info).A = A
        ∧ (getri n A lda ipiv work lwork info).ipiv = ipiv
        ∧ (getri n A lda ipiv work lwork info).info = info) := by
  constructor
  · unfold getrf
    split <;> exact ⟨rfl, rfl, rfl, rfl⟩
  · unfold getri
    split <;> exact ⟨rfl, rfl, rfl, rfl⟩

section Assertions

variable {P : Type} [Zero P] [Add P] [Mul P]

/-- The generic `gemm` as a case distinction on its arguments: the assertions of `gemm` and
of `basic_gemm` together reject exactly the non-positive sizes and the invalid flags. -/
theorem gemm_eq_ite (transa transb : Char) (m n k : Int) (alpha : P) (A : Buf P) (lda : Int)
    (B : Buf P) (ldb : Int) (beta : P) (C : Buf P) (ldc : Int) :
    gemm transa transb m n k alpha A lda B ldb beta C ldc
      = if m ≤ 0 ∨ n ≤ 0 ∨ k ≤ 0 ∨ lda ≤ 0 ∨ ldb ≤ 0 ∨ ldc ≤ 0
            ∨ ¬(transa = 't' ∨ transa = 'n') ∨ ¬(transb = 't' ∨ transb = 'n') then
          Outcome.assertFail
        else
          Outcome.ok (basic_gemm_loops A (if transa = 't' then true else false) lda B
            (if transb = 't' then true else false) ldb C ldc m k n) := by
  unfold gemm basic_gemm
  by_cases h1 : m < 0 ∨ n < 0 ∨ k < 0 ∨ ¬(transa = 't' ∨ transa = 'n')
      ∨ ¬(transb = 't' ∨ transb = 'n')
  · have hbad : m ≤ 0 ∨ n ≤ 0 ∨ k ≤ 0 ∨ lda ≤ 0 ∨ ldb ≤ 0 ∨ ldc ≤ 0
        ∨ ¬(transa = 't' ∨ transa = 'n') ∨ ¬(transb = 't' ∨ transb = 'n') := by
      rcases h1 with h | h | h | h | h
      · exact Or.inl (by omega)
      · exact Or.inr (Or.inl (by omega))
      · exact Or.inr (Or.inr (Or.inl (by omega)))
      · exact Or.inr (Or.inr (Or.inr (Or.inr (Or.inr (Or.inr (Or.inl h))))))
      · exact Or.inr (Or.inr (Or.inr (Or.inr (Or.inr (Or.inr (Or.inr h))))))
    rw [if_pos h1, if_pos hbad]
  · rw [if_neg h1]
    have hta : transa = 't' ∨ transa = 'n' := by
      by_contra hc; exact h1 (Or.inr (Or.inr (Or.inr (Or.inl hc))))
    have htb : transb = 't' ∨ transb = 'n' := by
      by_contra hc; exact h1 (Or.inr (Or.inr (Or.inr (Or.inr hc))))
    by_cases h2 : m > 0 ∧ k > 0 ∧ n > 0 ∧ lda > 0 ∧ ldb > 0 ∧ ldc > 0
    · have hgood : ¬(m ≤ 0 ∨ n ≤ 0 ∨ k ≤ 0 ∨ lda ≤ 0 ∨ ldb ≤ 0 ∨ ldc ≤ 0
          ∨ ¬(transa = 't' ∨ transa = 'n') ∨ ¬(transb = 't' ∨ transb = 'n')) := by
        rintro (h | h | h | h | h | h | h | h)
        · omega
        · omega
        · omega
        · omega
        · omega
        · omega
        · exact h hta
        · exact h htb
      simp only []
      rw [if_pos h2, if_neg hgood]
    · have hbad : m ≤ 0 ∨ n ≤ 0 ∨ k ≤ 0 ∨ lda ≤ 0 ∨ ldb ≤ 0 ∨ ldc ≤ 0
          ∨ ¬(transa = 't' ∨ transa = 'n') ∨ ¬(transb = 't' ∨ transb = 'n') := by
        by_contra hc
        apply h2
        have hm : ¬m ≤ 0 := fun h => hc (Or.inl h)
        have hn : ¬n ≤ 0 := fun h => hc (Or.inr (Or.inl h))
        have hk : ¬k ≤ 0 := fun h => hc (Or.inr (Or.inr (Or.inl h)))
        have ha : ¬lda ≤ 0 := fun h => hc (Or.inr (Or.inr (Or.inr (Or.inl h))))
        have hb : ¬ldb ≤ 0 := fun h => hc (Or.inr (Or.inr (Or.inr (Or.inr (Or.inl h)))))
        have hc' : ¬ldc ≤ 0 :=
          fun h => hc (Or.inr (Or.inr (Or.inr (Or.inr (Or.inr (Or.inl h))))))
        refine ⟨?_, ?_, ?_, ?_, ?_, ?_⟩ <;> omega
      simp only []
      rw [if_neg h2, if_pos hbad]

/-- The generic `gemv` as a case distinction on its arguments. -/
theorem gemv_eq_ite (trans : Char) (m n : Int) (alpha : P) (A : Buf P) (lda : Int) (x : Buf P)
    (incx : Int) (beta : P) (y : Buf P) (incy : Int) :
    gemv trans m n alpha A lda x incx beta y incy
      = if m ≤ 0 ∨ n ≤ 0 ∨ lda ≤ 0 ∨ incx < 0 ∨ incy < 0 ∨ ¬(trans = 't' ∨ trans = 'n') then
          Outcome.assertFail
        else
          Outcome.ok (basic_gemm_loops A (if trans = 't' then true else false) lda x false n
            y n m n 1) := by
  unfold gemv basic_gemm
  by_cases h1 : m < 0 ∨ n < 0 ∨ lda < 0 ∨ incx < 0 ∨ incy < 0 ∨ ¬(trans = 't' ∨ trans = 'n')
  · have hbad : m ≤ 0 ∨ n ≤ 0 ∨ lda ≤ 0 ∨ incx < 0 ∨ incy < 0
        ∨ ¬(trans = 't' ∨ trans = 'n') := by
      rcases h1 with h | h | h | h | h | h
      · exact Or.inl (by omega)
      · exact Or.inr (Or.inl (by omega))
      · exact Or.inr (Or.inr (Or.inl (by omega)))
      · exact Or.inr (Or.inr (Or.inr (Or.inl h)))
      · exact Or.inr (Or.inr (Or.inr (Or.inr (Or.inl h))))
      · exact Or.inr (Or.inr (Or.inr (Or.inr (Or.inr h))))
    rw [if_pos h1, if_pos hbad]
  · rw [if_neg h1]
    have ht : trans = 't' ∨ trans = 'n' := by
      by_contra hc; exact h1 (Or.inr (Or.inr (Or.inr (Or.inr (Or.inr hc)))))
    have hx : ¬incx < 0 := fun hc => h1 (Or.inr (Or.inr (Or.inr (Or.inl hc))))
    have hy : ¬incy < 0 := fun hc => h1 (Or.inr (Or.inr (Or.inr (Or.inr (Or.inl hc)))))
    by_cases h2 : m > 0 ∧ n > 0 ∧ (1 : Int) > 0 ∧ lda > 0 ∧ n > 0 ∧ n > 0
    · have hgood : ¬(m ≤ 0 ∨ n ≤ 0 ∨ lda ≤ 0 ∨ incx < 0 ∨ incy < 0
          ∨ ¬(trans = 't' ∨ trans = 'n')) := by
        rintro (h | h | h | h | h | h)
        · omega
        · omega
        · omega
        · exact hx h
        · exact hy h
        · exact h ht
      simp only []
      rw [if_pos h2, if_neg hgood]
    · have hbad : m ≤ 0 ∨ n ≤ 0 ∨ lda ≤ 0 ∨ incx < 0 ∨ incy < 0
          ∨ ¬(trans = 't' ∨ trans = 'n') := by
        by_contra hc
        apply h2
        have hm : ¬m ≤ 0 := fun h => hc (Or.inl h)
        have hn : ¬n ≤ 0 := fun h => hc (Or.inr (Or.inl h))
        have hl : ¬lda ≤ 0 := fun h => hc (Or.inr (Or.inr (Or.inl h)))
        refine ⟨?_, ?_, ?_, ?_, ?_, ?_⟩ <;> omega
      simp only []
      rw [if_neg h2, if_pos hbad]

end Assertions

/-- C12 fails at zero dimensions: with `m = 0` and every other argument valid
(`n = k = lda = ldb = ldc = 1`, flags `'n'`), no integer argument of `gemm` is negative and
both flags are valid, yet the call ends in an assertion failure; the same holds for `gemv`
with `m = 0`, `n = lda = incx = incy = 1`. -/
theorem gemm_gemv_zero_rows_abort :
    (gemm 'n' 'n' 0 1 1 (1 : Int) (bufOf [1]) 1 (bufOf [1]) 1 0 (bufOf [0]) 1
          = Outcome.assertFail
        ∧ ¬((0 : Int) < 0 ∨ (1 : Int) < 0 ∨ (1 : Int) < 0 ∨ (1 : Int) < 0 ∨ (1 : Int) < 0
            ∨ (1 : Int) < 0 ∨ ¬('n' = 't' ∨ 'n' = 'n') ∨ ¬('n' = 't' ∨ 'n' = 'n')))
      ∧ (gemv 'n' 0 1 (1 : Int) (bufOf [1]) 1 (bufOf [1]) 1 0 (bufOf [0]) 1
          = Outcome.assertFail
        ∧ ¬((0 : Int) < 0 ∨ (1 : Int) < 0 ∨ (1 : Int) < 0 ∨ (1 : Int) < 0 ∨ (1 : Int) < 0
            ∨ ¬('n' = 't' ∨ 'n' = 'n'))) := by
  refine ⟨⟨?_, by decide⟩, ⟨?_, by decide⟩⟩
  · rw [gemm_eq_ite, if_pos (Or.inl le_rfl)]
  · rw [gemv_eq_ite, if_pos (Or.inl le_rfl)]

/-- C12, amended: a generic-path `gemm` call ends in an assertion failure if and only if one
of `m, n, k, lda, ldb, ldc` is `≤ 0` or a transpose flag is neither `'t'` nor `'n'`; a
generic-path `gemv` call does if and only if one of `m, n, lda` is `≤ 0`, `incx` or `incy` is
negative, or the flag is neither `'t'` nor `'n'`; every other call completes with a result. -/
theorem gemm_gemv_assert_iff {P : Type} [Zero P] [Add P] [Mul P] (transa transb trans : Char)
    (m n k lda ldb ldc incx incy : Int) (alpha beta : P) (A B C x y : Buf P) :
    ((gemm transa transb m n k alpha A lda B ldb beta C ldc = Outcome.assertFail ↔
          (m ≤ 0 ∨ n ≤ 0 ∨ k ≤ 0 ∨ lda ≤ 0 ∨ ldb ≤ 0 ∨ ldc ≤ 0
            ∨ ¬(transa = 't' ∨ transa = 'n') ∨ ¬(transb = 't' ∨ transb = 'n')))
        ∧ (gemm transa transb m n k alpha A lda B ldb beta C ldc = Outcome.assertFail
          ∨ ∃ C_out : Buf P,
              gemm transa transb m n k alpha A lda B ldb beta C ldc = Outcome.ok C_out))
      ∧ ((gemv trans m n alpha A lda x incx beta y incy = Outcome.assertFail ↔
          (m ≤ 0 ∨ n ≤ 0 ∨ lda ≤ 0 ∨ incx < 0 ∨ incy < 0 ∨ ¬(trans = 't' ∨ trans = 'n')))
        ∧ (gemv trans m n alpha A lda x incx beta y incy = Outcome.assertFail
          ∨ ∃ y_out : Buf P,
              gemv trans m n alpha A lda x incx beta y incy = Outcome.ok y_out)) := by
  refine ⟨?_, ?_⟩
  · rw [gemm_eq_ite]
    by_cases h : m ≤ 0 ∨ n ≤ 0 ∨ k ≤ 0 ∨ lda ≤ 0 ∨ ldb ≤ 0 ∨ ldc ≤ 0
        ∨ ¬(transa = 't' ∨ transa = 'n') ∨ ¬(transb = 't' ∨ transb = 'n')
    · rw [if_pos h]
      exact ⟨⟨fun _ => h, fun _ => rfl⟩, Or.inl rfl⟩
    · rw [if_neg h]
      exact ⟨⟨fun hc => Outcome.noConfusion hc, fun hc => absurd hc h⟩, Or.inr ⟨_, rfl⟩⟩
  · rw [gemv_eq_ite]
    by_cases h : m ≤ 0 ∨ n ≤ 0 ∨ lda ≤ 0 ∨ incx < 0 ∨ incy < 0 ∨ ¬(trans = 't' ∨ trans = 'n')
    · rw [if_pos h]
      exact ⟨⟨fun _ => h, fun _ => rfl⟩, Or.inl rfl⟩
    · rw [if_neg h]
      exact ⟨⟨fun hc => Outcome.noConfusion hc, fun hc => absurd hc h⟩, Or.inr ⟨_, rfl⟩⟩

/-! ## Termination of the strided loops -/

/-- With step `0` and `i < n` the loop never leaves: every amount of fuel runs out. -/
theorem forStep_zero_step {σ : Type} (n i : Int) (hi : i < n) (body : Int → σ → σ) :
    ∀ (fuel : Nat) (s : σ), forStep n 0 body fuel i s = none := by
  intro fuel
  induction fuel with
  | zero => intro s; rfl
  | succ fuel ih =>
    intro s
    unfold forStep
    rw [if_pos hi, add_zero]
    exact ih (body i s)

/-- C13 at `n = 1` with a zero stride (`incx = 0` for `copy`, `dot` and `scal`, `incy = 0`
for `axpy`): the arguments pass every assertion, and the loop never ends, whatever the fuel
and the buffers. -/
theorem zero_stride_never_returns (fuel : Nat) (alpha : Int) (x y : Buf Int) :
    copy fuel 1 x 0 y 1 = Outcome.outOfFuel
      ∧ dot fuel 1 x 0 y 1 = Outcome.outOfFuel
      ∧ scal fuel 1 alpha x 0 = Outcome.outOfFuel
      ∧ axpy fuel 1 alpha x 1 y 0 = Outcome.outOfFuel := by
  refine ⟨?_, ?_, ?_, ?_⟩
  · unfold copy
    rw [if_neg (by decide), forStep_zero_step 1 0 (by decide)]
    rfl
  · unfold dot
    rw [if_neg (by decide), forStep_zero_step 1 0 (by decide)]
    rfl
  · unfold scal
    rw [if_neg (by decide), forStep_zero_step 1 0 (by decide)]
    rfl
  · unfold axpy
    rw [if_neg (by decide), forStep_zero_step 1 0 (by decide)]
    rfl

/-! ## The explicit time-advance update -/

/-- C14: one explicit time-advance step replaces the state `x` by `x + dt * fx`
componentwise: the updated state has the size of `x`, and its component `i` is
`x[i] + dt * fx[i]`. -/
theorem explicit_update_componentwise {P : Type} [Add P] [Mul P] (x fx : List P) (dt : P)
    (hlen : x.length = fx.length) :
    (explicit_time_advance_update x fx dt).length = x.length
      ∧ ∀ (i : Nat) (xi fxi : P), x[i]? = some xi → fx[i]? = some fxi →
          (explicit_time_advance_update x fx dt)[i]? = some (xi + dt * fxi) := by
  unfold explicit_time_advance_update
  constructor
  · rw [List.length_zipWith, hlen, Nat.min_self]
  · intro i xi fxi hx hfx
    rw [List.getElem?_zipWith, hx, hfx]

/-- The example of C14: `x = [1, 0]`, `fx = [0, 1]`, `dt = 1/10` give `[1, 1/10]`. -/
theorem explicit_update_componentwise_witness :
    explicit_time_advance_update [(1 : ℚ), 0] [0, 1] (1 / 10) = [1, 1 / 10]
      ∧ (explicit_time_advance_update [(1 : ℚ), 0] [0, 1] (1 / 10)).length = 2
      ∧ (explicit_time_advance_update [(1 : ℚ), 0] [0, 1] (1 / 10))[1]?
          = some (0 + 1 / 10 * 1) := by
  have h := explicit_update_componentwise [(1 : ℚ), 0] [0, 1] (1 / 10) rfl
  refine ⟨?_, h.1, h.2 1 0 1 rfl rfl⟩
  norm_num [explicit_time_advance_update]

/-! ## Behaviour of the generic paths -/

/-- C16: on the generic path over a commutative ring, for `n ≥ 0`, `incx ≥ 0`, `incy ≥ 1`
and separate buffers, `axpy` returns (with more than `n` units of fuel) with
`y_out[i] = y[i] + alpha * x[i]` at every index `0 ≤ i < n` that is a multiple of `incy`, and
`y_out[i] = y[i]` at every other index; a call with any other `incx ≥ 0` returns the same
buffer. -/
theorem axpy_steps_by_incy {P : Type} [CommRing P] (n : Int) (alpha : P) (x : Buf P)
    (incx : Int) (y : Buf P) (incy : Int) (hn : 0 ≤ n) (hincx : 0 ≤ incx) (hincy : 1 ≤ incy)
    (fuel : Nat) (hfuel : n.toNat < fuel) :
    ∃ y_out : Buf P, axpy fuel n alpha x incx y incy = Outcome.ok y_out
      ∧ (∀ i : Int, 0 ≤ i → i < n → incy ∣ i → y_out i = y i + alpha * x i)
      ∧ (∀ i : Int, ¬(0 ≤ i ∧ i < n ∧ incy ∣ i) → y_out i = y i)
      ∧ ∀ incx' : Int, 0 ≤ incx' → axpy fuel n alpha x incx' y incy = Outcome.ok y_out := by
  refine ⟨_, axpy_eq n alpha x incx y incy hn hincx hincy fuel hfuel, ?_, ?_, ?_⟩
  · intro i h0 h1 h2
    simp only [if_pos (And.intro h0 (And.intro h1 (Int.emod_eq_zero_of_dvd h2)))]
    rw [mul_comm]
  · intro i hi
    have : ¬(0 ≤ i ∧ i < n ∧ i % incy = 0) := by
      rintro ⟨h0, h1, h2⟩
      exact hi ⟨h0, h1, Int.dvd_of_emod_eq_zero h2⟩
    simp only [if_neg this]
  · intro incx' hincx'
    exact axpy_eq n alpha x incx' y incy hn hincx' hincy fuel hfuel

/-- An instance of C16: `n = 3`, `alpha = 2`, `x = [1,2,3]`, `incx = 1`, `y = [10,20,30]`,
`incy = 2`. -/
theorem axpy_steps_by_incy_witness :
    ∃ y_out : Buf Int, axpy 4 3 2 (bufOf [1, 2, 3]) 1 (bufOf [10, 20, 30]) 2 = Outcome.ok y_out
      ∧ (∀ i : Int, 0 ≤ i → i < 3 → (2 : Int) ∣ i →
          y_out i = (bufOf [10, 20, 30] : Buf Int) i + 2 * (bufOf [1, 2, 3] : Buf Int) i)
      ∧ (∀ i : Int, ¬(0 ≤ i ∧ i < 3 ∧ (2 : Int) ∣ i) → y_out i = (bufOf [10, 20, 30] : Buf Int) i)
      ∧ ∀ incx' : Int, 0 ≤ incx' →
          axpy 4 3 2 (bufOf [1, 2, 3]) incx' (bufOf [10, 20, 30]) 2 = Outcome.ok y_out :=
  axpy_steps_by_incy 3 2 (bufOf [1, 2, 3]) 1 (bufOf [10, 20, 30]) 2 (by decide) (by decide)
    (by decide) 4 (by decide)

/-- C17 at two inputs with `trans = 'n'`, `alpha = 1`, `beta = 0`.
With `m = 1`, `n = 2`, `lda = 1`, `incx = 2`, `incy = 1`, `A = [1,1]`, `x = [1,2,3]`,
`y = [0]` the generic `gemv` leaves `y[0] = A[0]*x[0] + A[1]*x[1] = 3`, while the strided
product is `A[0]*x[0] + A[1]*x[2] = 4`.
With `m = 2`, `n = 1`, `lda = 2`, `incx = 1`, `incy = 2`, `A = [1,1]`, `x = [1]`,
`y = [0,0,0]` it leaves `y = [1,1,0]`, while the strided result is `[1,0,1]`. -/
theorem gemv_ignores_strides :
    (gemv 'n' 1 2 (1 : Int) (bufOf [1, 1]) 1 (bufOf [1, 2, 3]) 2 0 (bufOf [0]) 1).take 1
        = Outcome.ok [3]
      ∧ (bufOf [(1 : Int), 1]) (0 * 1 + 0) * (bufOf [(1 : Int), 2, 3]) (0 * 2)
          + (bufOf [(1 : Int), 1]) (1 * 1 + 0) * (bufOf [(1 : Int), 2, 3]) (1 * 2) = 4
      ∧ (gemv 'n' 2 1 (1 : Int) (bufOf [1, 1]) 2 (bufOf [1]) 1 0 (bufOf [0, 0, 0]) 2).take 3
        = Outcome.ok [1, 1, 0] := by
  decide

/-- C18: the generic paths of `gemm` and `gemv` do not depend on `alpha` and `beta`: two
calls that agree on every other argument and on the buffers end the same way, with the
same `C` (respectively `y`). -/
theorem gemm_gemv_ignore_alpha_beta {P : Type} [Zero P] [Add P] [Mul P]
    (transa transb trans : Char) (m n k lda ldb ldc incx incy : Int)
    (alpha beta alpha' beta' : P) (A B C x y : Buf P) :
    gemm transa transb m n k alpha A lda B ldb beta C ldc
        = gemm transa transb m n k alpha' A lda B ldb beta' C ldc
      ∧ gemv trans m n alpha A lda x incx beta y incy
        = gemv trans m n alpha' A lda x incx beta' y incy :=
  ⟨rfl, rfl⟩

/-! ## The iteration count of the strided loops -/

section Count

variable {σ : Type}

theorem forRange_succ (body : Int → σ → σ) (s : σ) (K : Nat) :
    forRange ((K : Int) + 1) body s = body (K : Int) (forRange (K : Int) body s) := by
  unfold forRange
  have h1 : ((K : Int) + 1).toNat = K + 1 := by omega
  rw [h1, Int.toNat_natCast, forRange_foldl_succ]

/-- The count `K` with `n ≤ K * step < n + step` is `n / step` rounded up. -/
theorem ceilDiv_eq (n step : Int) (hstep : 1 ≤ step) (K : Int) (hge : n ≤ K * step)
    (hlt : K * step < n + step) : ceilDiv n step = K := by
  unfold ceilDiv
  have hpos : 0 < step := by omega
  have h1 : K * step ≤ n + step - 1 := by omega
  have h2 : n + step - 1 < (K + 1) * step := by
    rw [add_mul, one_mul]; omega
  apply le_antisymm
  · exact Int.lt_add_one_iff.mp ((Int.ediv_lt_iff_lt_mul hpos).mpr h2)
  · exact (Int.le_ediv_iff_mul_le hpos).mpr h1

theorem ceilDiv_nonneg (n step : Int) (hn : 0 ≤ n) (hstep : 1 ≤ step) : 0 ≤ ceilDiv n step :=
  Int.ediv_nonneg (by omega) (by omega)

/-- With `n ≥ 0`, a step `≥ 1` and more than `n` units of fuel, the loop
`for (i = 0; i < n; i += step)` runs its body at `i = 0, step, 2*step, …`, `ceilDiv n step`
times in all. -/
theorem forStep_eq_forRange (n step : Int) (hn : 0 ≤ n) (hstep : 1 ≤ step)
    (body : Int → σ → σ) (s0 : σ) (fuel : Nat) (hfuel : n.toNat < fuel) :
    forStep n step body fuel 0 s0
      = some (forRange (ceilDiv n step) (fun k s => body (k * step) s) s0) := by
  obtain ⟨i', s', hrun, hge, ⟨K, hi', hlt, hs'⟩⟩ :=
    forStep_induction n step (by omega) body
      (fun i s => ∃ K : Nat, i = (K : Int) * step ∧ (K : Int) * step < n + step
        ∧ s = forRange (K : Int) (fun k s => body (k * step) s) s0)
      (by
        rintro i s hi ⟨K, hiK, _, hs⟩
        refine ⟨K + 1, ?_, ?_, ?_⟩
        · push_cast; rw [hiK]; ring
        · push_cast; rw [add_mul, one_mul]; omega
        · push_cast
          rw [forRange_succ, ← hs, ← hiK])
      fuel 0 s0 (by simpa using hfuel)
      ⟨0, by simp, by simp; omega, by simp [forRange]⟩
  rw [hrun, hs', ceilDiv_eq n step hstep (K : Int) (by omega) hlt]

end Count

section CopyDot

variable {P : Type}

/-- Closed form of the generic `copy`, at every offset `p` of `y`: iteration `k` stores
`x[k*incx]` at `y[k*incy]`, for `k` below `ceilDiv n incx`. -/
theorem copy_eq [Zero P] [Add P] [Mul P] (n : Int) (x : Buf P) (incx : Int) (y : Buf P)
    (incy : Int) (hn : 0 ≤ n) (hincx : 1 ≤ incx) (hincy : 1 ≤ incy) (fuel : Nat)
    (hfuel : n.toNat < fuel) :
    copy fuel n x incx y incy
      = Outcome.ok (fun p => if 0 ≤ p ∧ p % incy = 0 ∧ p / incy < ceilDiv n incx then
          x (p / incy * incx) else y p) := by
  unfold copy
  rw [if_neg (by omega), forStep_eq_forRange n incx hn hincx _ _ fuel hfuel]
  have hc := ceilDiv_nonneg n incx hn hincx
  have hdiv : ∀ p : Int, 0 ≤ p → 0 ≤ p / incy := fun p hp => Int.ediv_nonneg hp (by omega)
  obtain ⟨h2, h1⟩ := forRange_induction (ceilDiv n incx)
    (fun k s => (fun i (s : Buf P × Int) => (Function.update s.1 s.2 (x i), s.2 + incy))
      (k * incx) s)
    (fun k s => s.2 = k * incy ∧ ∀ p, s.1 p =
      if 0 ≤ p ∧ p % incy = 0 ∧ p / incy < k then x (p / incy * incx) else y p) (y, 0)
    ⟨by simp, by
      intro p
      have := hdiv p
      rw [if_neg]
      omega⟩
    (by
      rintro k s hk _ ⟨hs2, hs1⟩
      beta_reduce
      refine ⟨?_, ?_⟩
      · show s.2 + incy = (k + 1) * incy
        rw [hs2]; ring
      · intro p
        show Function.update s.1 s.2 (x (k * incx)) p = _
        rw [hs2]
        have hmod : k * incy % incy = 0 := Int.mul_emod_left k incy
        have hquo : k * incy / incy = k := Int.mul_ediv_cancel k (by omega)
        have hpos : 0 ≤ k * incy := Int.mul_nonneg hk (by omega)
        by_cases hp : p = k * incy
        · subst hp
          rw [Function.update_same, if_pos ⟨hpos, hmod, by omega⟩, hquo]
        · rw [Function.update_noteq hp, hs1]
          by_cases hcond : 0 ≤ p ∧ p % incy = 0 ∧ p / incy < k
          · rw [if_pos hcond, if_pos ⟨hcond.1, hcond.2.1, by omega⟩]
          · rw [if_neg hcond, if_neg]
            rintro ⟨g1, g2, g3⟩
            by_cases hlt : p / incy < k
            · exact hcond ⟨g1, g2, hlt⟩
            · have hq : p / incy = k := by omega
              have := Int.emod_add_ediv p incy
              rw [hq, g2] at this
              apply hp
              rw [← this]; ring)
  show Outcome.ok _ = _
  congr 1
  funext p
  rw [h1 p]
  have := hdiv p
  by_cases hcond : 0 ≤ p ∧ p % incy = 0 ∧ p / incy < ceilDiv n incx
  · rw [if_pos hcond, if_pos ⟨hcond.1, hcond.2.1, by omega⟩]
  · rw [if_neg hcond, if_neg]
    rintro ⟨g1, g2, g3⟩
    exact hcond ⟨g1, g2, by omega⟩

/-- Closed form of the generic `dot`: the sum of `x[k*incx] * y[k*incy]` over the
`ceilDiv n incx` iterations. -/
theorem dot_eq [Ring P] (n : Int) (x : Buf P) (incx : Int) (y : Buf P) (incy : Int)
    (hn : 0 ≤ n) (hincx : 1 ≤ incx) (hincy : 1 ≤ incy) (fuel : Nat) (hfuel : n.toNat < fuel) :
    dot fuel n x incx y incy
      = Outcome.ok (∑ k in Finset.Ico (0 : Int) (ceilDiv n incx), x (k * incx) * y (k * incy)) := by
  unfold dot
  rw [if_neg (by omega), forStep_eq_forRange n incx hn hincx _ _ fuel hfuel]
  have hc := ceilDiv_nonneg n incx hn hincx
  obtain ⟨_, h1⟩ := forRange_induction (ceilDiv n incx)
    (fun k s => (fun i (s : P × Int) => (s.1 + x i * y s.2, s.2 + incy)) (k * incx) s)
    (fun k s => s.2 = k * incy ∧
      s.1 = ∑ k' in Finset.Ico (0 : Int) k, x (k' * incx) * y (k' * incy)) ((0 : P), 0)
    ⟨by simp, by simp⟩
    (by
      rintro k s hk _ ⟨hs2, hs1⟩
      beta_reduce
      refine ⟨?_, ?_⟩
      · show s.2 + incy = (k + 1) * incy
        rw [hs2]; ring
      · show s.1 + x (k * incx) * y s.2 = _
        rw [Ico_int_succ k hk, Finset.sum_insert (by simp), hs1, hs2, add_comm])
  show Outcome.ok _ = _
  rw [h1, Int.toNat_of_nonneg hc]

end CopyDot

/-- The loop nest of `basic_gemm` stores only at offsets `j*ldc+i` with `i < m`, `j < n`. -/
theorem basic_gemm_loops_frame {P : Type} [Zero P] [Add P] [Mul P] (A : Buf P) (trans_A : Bool)
    (lda : Int) (B : Buf P) (trans_B : Bool) (ldb : Int) (C : Buf P) (ldc m k n : Int) (p : Int)
    (hp : ∀ i j : Int, 0 ≤ i → i < m → 0 ≤ j → j < n → p ≠ j * ldc + i) :
    basic_gemm_loops A trans_A lda B trans_B ldb C ldc m k n p = C p := by
  unfold basic_gemm_loops
  refine forRange_induction m _ (fun _ C' => C' p = C p) C rfl ?_
  intro i C' hi hilt hC'
  beta_reduce
  refine forRange_induction n _ (fun _ C'' => C'' p = C p) C' hC' ?_
  intro j C'' hj hjlt hC''
  beta_reduce
  simp only []
  rw [Function.update_noteq (hp i j hi hilt hj hjlt), hC'']

/-- The count `ceilDiv n step` is the least `c` with `n ≤ c * step`. -/
theorem ceilDiv_spec (n step : Int) (hstep : 1 ≤ step) :
    n ≤ ceilDiv n step * step ∧ ceilDiv n step * step < n + step := by
  unfold ceilDiv
  have hpos : 0 < step := by omega
  have h1 := Int.ediv_mul_le (n + step - 1) (ne_of_gt hpos)
  have h2 := Int.lt_ediv_add_one_mul_self (n + step - 1) hpos
  rw [add_mul, one_mul] at h2
  constructor <;> omega

/-- C19: on the generic path, for `n ≥ 0`, `incx ≥ 1`, `incy ≥ 1` and `c = ceil(n/incx)`
(the least `c` with `n ≤ c*incx`), `copy` returns (with more than `n` units of fuel) with
`y[k*incy] = x[k*incx]` for `0 ≤ k < c` and every other element of `y` unchanged, and `dot`
returns `Σ_{k<c} x[k*incx] * y[k*incy]`; for a unit `incx` the count is `n`. -/
theorem copy_dot_visit_ceil {P : Type} [Ring P] (n : Int) (x : Buf P) (incx : Int) (y : Buf P)
    (incy : Int) (hn : 0 ≤ n) (hincx : 1 ≤ incx) (hincy : 1 ≤ incy) (fuel : Nat)
    (hfuel : n.toNat < fuel) :
    (n ≤ ceilDiv n incx * incx ∧ ceilDiv n incx * incx < n + incx)
      ∧ (∃ y_out : Buf P, copy fuel n x incx y incy = Outcome.ok y_out
        ∧ (∀ k : Int, 0 ≤ k → k < ceilDiv n incx → y_out (k * incy) = x (k * incx))
        ∧ ∀ p : Int, (∀ k : Int, 0 ≤ k → k < ceilDiv n incx → p ≠ k * incy) → y_out p = y p)
      ∧ dot fuel n x incx y incy
          = Outcome.ok (∑ k in Finset.Ico (0 : Int) (ceilDiv n incx), x (k * incx) * y (k * incy))
      ∧ ceilDiv n 1 = n := by
  refine ⟨ceilDiv_spec n incx hincx,
    ⟨_, copy_eq n x incx y incy hn hincx hincy fuel hfuel, ?_, ?_⟩,
    dot_eq n x incx y incy hn hincx hincy fuel hfuel, ?_⟩
  · intro k hk hkc
    have hmod : k * incy % incy = 0 := Int.mul_emod_left k incy
    have hquo : k * incy / incy = k := Int.mul_ediv_cancel k (by omega)
    have hpos : 0 ≤ k * incy := Int.mul_nonneg hk (by omega)
    show (if 0 ≤ k * incy ∧ k * incy % incy = 0 ∧ k * incy / incy < ceilDiv n incx then
      x (k * incy / incy * incx) else y (k * incy)) = x (k * incx)
    rw [hquo, if_pos ⟨hpos, hmod, hkc⟩]
  · intro p hp
    have hneg : ¬(0 ≤ p ∧ p % incy = 0 ∧ p / incy < ceilDiv n incx) := by
      rintro ⟨g1, g2, g3⟩
      apply hp (p / incy) (Int.ediv_nonneg g1 (by omega)) g3
      have := Int.emod_add_ediv p incy
      rw [g2] at this
      linarith
    simp only [if_neg hneg]
  · unfold ceilDiv
    simp

/-- An instance of C19: `n = 3`, `incx = 2`, `incy = 1`, `x = [1,2,3]`, `y = [0,0,0]`, where
the count is `2`. -/
theorem copy_dot_visit_ceil_witness :
    ceilDiv 3 2 = 2
      ∧ ((3 : Int) ≤ ceilDiv 3 2 * 2 ∧ ceilDiv 3 2 * 2 < 3 + 2)
      ∧ (∃ y_out : Buf Int, copy 4 3 (bufOf [1, 2, 3]) 2 (bufOf [0, 0, 0]) 1 = Outcome.ok y_out
        ∧ (∀ k : Int, 0 ≤ k → k < ceilDiv 3 2 →
            y_out (k * 1) = (bufOf [1, 2, 3] : Buf Int) (k * 2))
        ∧ ∀ p : Int, (∀ k : Int, 0 ≤ k → k < ceilDiv 3 2 → p ≠ k * 1) →
            y_out p = (bufOf [0, 0, 0] : Buf Int) p)
      ∧ dot 4 3 (bufOf [1, 2, 3]) 2 (bufOf [0, 0, 0]) 1
          = Outcome.ok (∑ k in Finset.Ico (0 : Int) (ceilDiv 3 2),
              (bufOf [1, 2, 3] : Buf Int) (k * 2) * (bufOf [0, 0, 0] : Buf Int) (k * 1))
      ∧ ceilDiv 3 1 = 3 :=
  ⟨by decide, copy_dot_visit_ceil 3 (bufOf [1, 2, 3]) 2 (bufOf [0, 0, 0]) 1 (by decide)
    (by decide) (by decide) 4 (by decide)⟩

/-- C20: on the generic path, for `m, n, k ≥ 1`, positive leading dimensions, flags in
`{'n','t'}` and separate buffers, `gemm` returns and every offset `p` of `C` that is not
`j*ldc+i` for some `0 ≤ i < m`, `0 ≤ j < n` holds its value from before the call. The
buffers `A` and `B` are only read: the call produces a new content for `C` alone. -/
theorem gemm_writes_only_block {P : Type} [Zero P] [Add P] [Mul P] (transa transb : Char)
    (m n k : Int) (alpha : P) (A : Buf P) (lda : Int) (B : Buf P) (ldb : Int) (beta : P)
    (C : Buf P) (ldc : Int) (hta : transa = 'n' ∨ transa = 't')
    (htb : transb = 'n' ∨ transb = 't') (hm : 1 ≤ m) (hn : 1 ≤ n) (hk : 1 ≤ k)
    (hlda : 1 ≤ lda) (hldb : 1 ≤ ldb) (hldc : 1 ≤ ldc) :
    ∃ C_out : Buf P, gemm transa transb m n k alpha A lda B ldb beta C ldc = Outcome.ok C_out
      ∧ ∀ p : Int, (∀ i j : Int, 0 ≤ i → i < m → 0 ≤ j → j < n → p ≠ j * ldc + i) →
          C_out p = C p := by
  have hgood : ¬(m ≤ 0 ∨ n ≤ 0 ∨ k ≤ 0 ∨ lda ≤ 0 ∨ ldb ≤ 0 ∨ ldc ≤ 0
      ∨ ¬(transa = 't' ∨ transa = 'n') ∨ ¬(transb = 't' ∨ transb = 'n')) := by
    rintro (h | h | h | h | h | h | h | h)
    · omega
    · omega
    · omega
    · omega
    · omega
    · omega
    · exact h hta.symm
    · exact h htb.symm
  refine ⟨_, by rw [gemm_eq_ite, if_neg hgood], ?_⟩
  intro p hp
  exact basic_gemm_loops_frame A _ lda B _ ldb C ldc m k n p hp

/-- An instance of C20: the 2-by-2 example of C1 in a buffer with `ldc = 3`, whose padding
offsets `2` and `5` are not of the form `j*3+i` with `i, j < 2`. -/
theorem gemm_writes_only_block_witness :
    ∃ C_out : Buf Int,
      gemm 'n' 'n' 2 2 2 (1 : Int) (bufOf [1, 3, 2, 4]) 2 (bufOf [5, 7, 6, 8]) 2 0
        (bufOf [0, 0, 9, 0, 0, 9]) 3 = Outcome.ok C_out
      ∧ ∀ p : Int, (∀ i j : Int, 0 ≤ i → i < 2 → 0 ≤ j → j < 2 → p ≠ j * 3 + i) →
          C_out p = (bufOf [0, 0, 9, 0, 0, 9] : Buf Int) p :=
  gemm_writes_only_block 'n' 'n' 2 2 2 (1 : Int) (bufOf [1, 3, 2, 4]) 2 (bufOf [5, 7, 6, 8]) 2 0
    (bufOf [0, 0, 9, 0, 0, 9]) 3 (by decide) (by decide) (by decide) (by decide) (by decide)
    (by decide) (by decide) (by decide)

end Asgard
